import Mathlib

/-!
# PCA notebook — formal verification of the numeric core

Shallow embedding of the PCA computation of the notebook
`12_principal_components_analysis.ipynb`: sample mean, covariance matrix,
eigendecomposition-based change of basis, projection, truncation and
reconstruction, explained-variance ratios.

Numbers are modelled by exact rationals (`ℚ`): "within numerical tolerance"
statements of the design become exact equalities. The numerical eigensolver
`np.linalg.eig` is modelled as an oracle: theorems quantify over any pair
`(lamda, R)` satisfying its documented contract (columns of `R` are unit-length
eigenvectors of the input matrix), rather than fixing one decomposition.
-/

namespace PCA

open Matrix

/-- Sample mean: `Xbar = X.mean(axis=0)`, the per-feature arithmetic mean. -/
def Xbar {m n : ℕ} (X : Matrix (Fin m) (Fin n) ℚ) : Fin n → ℚ :=
  fun j => (∑ i, X i j) / (m : ℚ)

/-- The mean-centered data matrix `X - Xbar` (numpy broadcasting of the row
vector `Xbar` over the rows of `X`). -/
def centered {m n : ℕ} (X : Matrix (Fin m) (Fin n) ℚ) : Matrix (Fin m) (Fin n) ℚ :=
  fun i j => X i j - Xbar X j

/-- Covariance matrix: `Sigma = 1./(len(X)-1)*np.dot((X-Xbar).T,(X-Xbar))`. -/
def Sigma {m n : ℕ} (X : Matrix (Fin m) (Fin n) ℚ) : Matrix (Fin n) (Fin n) ℚ :=
  (1 / ((m : ℚ) - 1)) • ((centered X)ᵀ * centered X)

/-- Projection onto the eigenbasis: `X_new = np.dot(X-Xbar,R)`. -/
def X_new {m n : ℕ} (X : Matrix (Fin m) (Fin n) ℚ) (R : Matrix (Fin n) (Fin n) ℚ) :
    Matrix (Fin m) (Fin n) ℚ :=
  centered X * R

/-- Projection of (possibly out-of-sample) data with the model's fit-time
mean: `X_new_test = np.dot(X_test-Xbar,R)`. The mean `Xb` is the fitted
model's, not recomputed from the data being projected; on the training data
itself this coincides with `X_new`. -/
def X_new_test {m2 n : ℕ} (Xb : Fin n → ℚ) (R : Matrix (Fin n) (Fin n) ℚ)
    (X : Matrix (Fin m2) (Fin n) ℚ) : Matrix (Fin m2) (Fin n) ℚ :=
  (Matrix.of fun i j => X i j - Xb j) * R

/-- Column truncation `X_new[:,:k]`: keep the first `k` coordinates of each
projected sample. -/
def truncCols {m n : ℕ} (k : ℕ) (hk : k ≤ n) (A : Matrix (Fin m) (Fin n) ℚ) :
    Matrix (Fin m) (Fin k) ℚ :=
  fun i j => A i (Fin.castLE hk j)

/-- Zeroing trailing coordinates (`X_new[:,1] = 0` in the notebook, generalized
to keeping the first `k`): information beyond component `k` is discarded. -/
def zeroTail {m n : ℕ} (k : ℕ) (Z : Matrix (Fin m) (Fin n) ℚ) :
    Matrix (Fin m) (Fin n) ℚ :=
  fun i j => if (j : ℕ) < k then Z i j else 0

/-- Reconstruction: `X_simplified = np.dot(X_new,R.T) + Xbar` (numpy broadcast
of the row vector `Xb` over rows). -/
def X_simplified {m n : ℕ} (Xb : Fin n → ℚ) (R : Matrix (Fin n) (Fin n) ℚ)
    (Z : Matrix (Fin m) (Fin n) ℚ) : Matrix (Fin m) (Fin n) ℚ :=
  fun i j => (Z * Rᵀ) i j + Xb j

/-- Per-component explained-variance fraction:
`variance_fraction = lamda/lamda.sum()` (full eigenvalue sum). -/
def variance_fraction {n : ℕ} (lamda : Fin n → ℚ) : Fin n → ℚ :=
  fun j => lamda j / ∑ i, lamda i

/-- Cumulative explained-variance fraction:
`np.cumsum(lamda/lamda.sum())` at position `j`. -/
def cumVF {n : ℕ} (lamda : Fin n → ℚ) (j : Fin n) : ℚ :=
  ∑ i ∈ Finset.Iic j, variance_fraction lamda i

/-- Squared reconstruction error of row `i`: the summed squared elementwise
difference between the row of `X` and the row of `Y`. -/
def errSq {m n : ℕ} (X Y : Matrix (Fin m) (Fin n) ℚ) (i : Fin m) : ℚ :=
  ∑ t, (X i t - Y i t) ^ 2

/-- The comparison used to model `lamda.argsort()`: ascending by value, ties by
original index (numpy argsort is stable on the small arrays the notebook sorts,
where its introsort runs plain insertion sort). -/
def ltIdx {n : ℕ} (v : Fin n → ℚ) (a b : Fin n) : Prop :=
  v a < v b ∨ (v a = v b ∧ a ≤ b)

instance ltIdx_decidable {n : ℕ} (v : Fin n → ℚ) : DecidableRel (ltIdx v) :=
  fun a b => decidable_of_iff (v a < v b ∨ (v a = v b ∧ a ≤ b)) Iff.rfl

instance ltIdx_total {n : ℕ} (v : Fin n → ℚ) : IsTotal (Fin n) (ltIdx v) where
  total a b := by
    rcases lt_trichotomy (v a) (v b) with h | h | h
    · exact Or.inl (Or.inl h)
    · rcases le_total a b with hab | hab
      · exact Or.inl (Or.inr ⟨h, hab⟩)
      · exact Or.inr (Or.inr ⟨h.symm, hab⟩)
    · exact Or.inr (Or.inl h)

instance ltIdx_trans {n : ℕ} (v : Fin n → ℚ) : IsTrans (Fin n) (ltIdx v) where
  trans a b c hab hbc := by
    rcases hab with h1 | ⟨h1, h1i⟩ <;> rcases hbc with h2 | ⟨h2, h2i⟩
    · exact Or.inl (h1.trans h2)
    · exact Or.inl (h2 ▸ h1)
    · exact Or.inl (h1 ▸ h2)
    · exact Or.inr ⟨h1.trans h2, h1i.trans h2i⟩

/-- `idx = lamda.argsort()[::-1]`: indices of `v` sorted by value descending
(stable ascending argsort, then reversal). -/
def argsortDesc {n : ℕ} (v : Fin n → ℚ) : List (Fin n) :=
  ((List.finRange n).insertionSort (ltIdx v)).reverse

/-- The position map of the descending sort: `sortedPos v j` is the original
index holding the `j`-th largest value (implements `lamda[idx]`, `R[:,idx]`). -/
def sortedPos {n : ℕ} (v : Fin n → ℚ) (j : Fin n) : Fin n :=
  (argsortDesc v).get ⟨j, by
    rw [argsortDesc, List.length_reverse, (List.perm_insertionSort _ _).length_eq,
      List.length_finRange]
    exact j.isLt⟩

/-- Error kinds of the design contract. -/
inductive PCAError where
  | invalidInput : PCAError
  | dimensionMismatch : PCAError
  | numericalError : PCAError
deriving DecidableEq

/-- A scalar as held by a numpy array: a finite rational, or one of the
non-finite IEEE values. -/
inductive Val where
  | num : ℚ → Val
  | nan : Val
  | inf : Val
  | ninf : Val
deriving DecidableEq

/-- Finiteness test (`np.isfinite`). -/
def Val.isFinite : Val → Bool
  | .num _ => true
  | _ => false

/-- The rational carried by a finite value (junk on non-finite values, which
`fit` rejects before reading them). -/
def Val.toQ : Val → ℚ
  | .num q => q
  | _ => 0

/-- The state fitted from a data matrix: mean vector, the `k` retained
eigenvalues (sorted descending) and the matching eigenvector columns. -/
structure FittedModel (n k : ℕ) where
  mean : Fin n → ℚ
  eigenvalues : Fin k → ℚ
  components : Matrix (Fin n) (Fin k) ℚ

/-- Modelled from the spec: the notebook's fitting pipeline has no input
validation (`1./(len(X)-1)` simply divides by zero when m=1, and no component
count is checked); the spec's `fit` contract — reject m < 2, non-finite values,
and k > n with `InvalidInput`, return a complete model otherwise — is modelled
here around the notebook's covariance pipeline, with the numerical eigensolver
`np.linalg.eig` passed as a parameter `eig`. -/
def fit {m n : ℕ} (eig : Matrix (Fin n) (Fin n) ℚ → (Fin n → ℚ) × Matrix (Fin n) (Fin n) ℚ)
    (k : ℕ) (X : Matrix (Fin m) (Fin n) Val) : Except PCAError (FittedModel n k) :=
  if m < 2 then .error .invalidInput
  else if ¬ (∀ i j, (X i j).isFinite = true) then .error .invalidInput
  else if h : k ≤ n then
    let Xq : Matrix (Fin m) (Fin n) ℚ := fun i j => (X i j).toQ
    let lamda := (eig (Sigma Xq)).1
    let R := (eig (Sigma Xq)).2
    .ok { mean := Xbar Xq
          eigenvalues := fun j => lamda (sortedPos lamda (Fin.castLE h j))
          components := fun i j => R i (sortedPos lamda (Fin.castLE h j)) }
  else .error .invalidInput

/-- Modelled from the spec: whitening (the notebook delegates it to
`sklearn.decomposition.PCA(whiten=True)`, whose internals are not in this
repository). With whitening on, each projected coordinate is divided by the
square root of its component's eigenvalue, after failing with `NumericalError`
when some retained eigenvalue is ≤ a small positive `eps`; with whitening off
the projection is returned unchanged. The numerical square-root routine is the
parameter `sqrtFn`. -/
def transformWhiten {m k : ℕ} (whiten : Bool) (eps : ℚ) (sqrtFn : ℚ → ℚ)
    (lam : Fin k → ℚ) (Z : Matrix (Fin m) (Fin k) ℚ) :
    Except PCAError (Matrix (Fin m) (Fin k) ℚ) :=
  if whiten then
    if ∃ j, lam j ≤ eps then .error .numericalError
    else .ok (fun i j => Z i j / sqrtFn (lam j))
  else .ok Z

/-- First index of a largest-magnitude entry of `v` (ties keep the earliest
index). -/
def argmaxAbs {n : ℕ} (v : Fin (n + 1) → ℚ) : Fin (n + 1) :=
  (List.finRange (n + 1)).foldl (fun b i => if |v b| < |v i| then i else b) 0

/-- Modelled from the spec: the deterministic sign convention (the notebook
does not fix eigenvector sign; the spec mandates making the largest-magnitude
component of each eigenvector positive). -/
def signFix {n : ℕ} (v : Fin (n + 1) → ℚ) : Fin (n + 1) → ℚ :=
  if v (argmaxAbs v) < 0 then fun i => -(v i) else v

/-- Entrywise orthonormality of the columns of `R`, extracted from `Rᵀ * R = 1`. -/
lemma colOrtho {n : ℕ} {R : Matrix (Fin n) (Fin n) ℚ} (hR : Rᵀ * R = 1)
    (a b : Fin n) : (∑ t, R t a * R t b) = if a = b then 1 else 0 := by
  have h := congrFun (congrFun hR a) b
  simpa [Matrix.mul_apply, Matrix.one_apply] using h

/-- Reconstruction error of a coefficient vector `a` against a centered row `c`,
expanded using orthonormality of the columns of `R`. -/
lemma recon_err_expand {n : ℕ} {R : Matrix (Fin n) (Fin n) ℚ} (hR : Rᵀ * R = 1)
    (c a : Fin n → ℚ) :
    (∑ t, (c t - ∑ j, a j * R t j) ^ 2)
      = (∑ t, c t ^ 2) - 2 * (∑ j, a j * (∑ t, c t * R t j)) + ∑ j, a j ^ 2 := by
  have expand : ∀ t : Fin n, (c t - ∑ j, a j * R t j) ^ 2
      = c t ^ 2 - 2 * (c t * ∑ j, a j * R t j) + (∑ j, a j * R t j) ^ 2 := by
    intro t; ring
  rw [Finset.sum_congr rfl fun t _ => expand t]
  rw [Finset.sum_add_distrib, Finset.sum_sub_distrib]
  congr 1
  · congr 1
    rw [← Finset.mul_sum]
    congr 1
    calc ∑ t, c t * ∑ j, a j * R t j
        = ∑ t, ∑ j, a j * (c t * R t j) := by
          apply Finset.sum_congr rfl
          intro t _
          rw [Finset.mul_sum]
          apply Finset.sum_congr rfl
          intro j _
          ring
      _ = ∑ j, ∑ t, a j * (c t * R t j) := Finset.sum_comm
      _ = ∑ j, a j * ∑ t, c t * R t j := by
          apply Finset.sum_congr rfl
          intro j _
          rw [Finset.mul_sum]
  · have sq_expand : ∀ t : Fin n, (∑ j, a j * R t j) ^ 2
        = ∑ j, ∑ j2, (a j * a j2) * (R t j * R t j2) := by
      intro t
      rw [pow_two, Finset.sum_mul_sum]
      apply Finset.sum_congr rfl
      intro j _
      apply Finset.sum_congr rfl
      intro j2 _
      ring
    rw [Finset.sum_congr rfl fun t _ => sq_expand t]
    rw [Finset.sum_comm]
    have inner_swap : ∀ j : Fin n, (∑ t, ∑ j2, (a j * a j2) * (R t j * R t j2))
        = ∑ j2, (a j * a j2) * ∑ t, R t j * R t j2 := by
      intro j
      rw [Finset.sum_comm]
      apply Finset.sum_congr rfl
      intro j2 _
      rw [Finset.mul_sum]
    rw [Finset.sum_congr rfl fun j _ => inner_swap j]
    apply Finset.sum_congr rfl
    intro j _
    rw [Finset.sum_congr rfl fun j2 _ => by rw [colOrtho hR j j2]]
    simp [Finset.sum_ite_eq' , pow_two]

/-- The reconstruction error through `X_simplified` in coefficient form. -/
lemma errSq_simplified {m n : ℕ} (X : Matrix (Fin m) (Fin n) ℚ) (Xb : Fin n → ℚ)
    (R : Matrix (Fin n) (Fin n) ℚ) (Z : Matrix (Fin m) (Fin n) ℚ) (i : Fin m) :
    errSq X (X_simplified Xb R Z) i
      = ∑ t, ((X i t - Xb t) - ∑ j, Z i j * R t j) ^ 2 := by
  unfold errSq X_simplified
  apply Finset.sum_congr rfl
  intro t _
  rw [Matrix.mul_apply]
  congr 1
  simp only [Matrix.transpose_apply]
  ring

/-- Claim C1, amended — for a fitted model whose eigenvector matrix has
orthonormal columns (`Rᵀ * R = 1`, which the eigensolver contract guarantees
whenever the eigenvalues are distinct, cf. C6) and any model mean `Xb`: at
full rank the composition `inverse_transform ∘ transform` is the identity on
any data matrix, and truncating to the first `k` coordinates gives the
least-squares-optimal reconstruction among all coefficient choices supported
on the first `k` basis vectors. -/
theorem C1_roundtrip_and_optimality {m n : ℕ} (Xb : Fin n → ℚ)
    (X : Matrix (Fin m) (Fin n) ℚ)
    (R : Matrix (Fin n) (Fin n) ℚ) (hR : Rᵀ * R = 1) :
    X_simplified Xb R (X_new_test Xb R X) = X ∧
    ∀ (k : ℕ) (i : Fin m) (W : Matrix (Fin m) (Fin n) ℚ),
      (∀ j : Fin n, k ≤ (j : ℕ) → W i j = 0) →
      errSq X (X_simplified Xb R (zeroTail k (X_new_test Xb R X))) i
        ≤ errSq X (X_simplified Xb R W) i := by
  constructor
  · have hRRt : R * Rᵀ = 1 := Matrix.mul_eq_one_comm.mp hR
    funext i j
    show (X_new_test Xb R X * Rᵀ) i j + Xb j = X i j
    rw [X_new_test, Matrix.mul_assoc, hRRt, Matrix.mul_one]
    simp
  · intro k i W hW
    rw [errSq_simplified, errSq_simplified]
    set c : Fin n → ℚ := fun t => X i t - Xb t with hc
    set z : Fin n → ℚ := fun j => ∑ t, c t * R t j with hz
    have hZval : ∀ j : Fin n, X_new_test Xb R X i j = z j := by
      intro j
      rw [X_new_test, Matrix.mul_apply]
      rfl
    have hzt : ∀ j : Fin n, zeroTail k (X_new_test Xb R X) i j
        = if (j : ℕ) < k then z j else 0 := by
      intro j
      rw [zeroTail]
      by_cases h : (j : ℕ) < k <;> simp [h, hZval]
    have hL : (∑ t, (c t - ∑ j, zeroTail k (X_new_test Xb R X) i j * R t j) ^ 2)
        = (∑ t, c t ^ 2) - 2 * (∑ j : Fin n, (if (j : ℕ) < k then z j else 0) * z j)
          + ∑ j : Fin n, (if (j : ℕ) < k then z j else 0) ^ 2 := by
      rw [Finset.sum_congr rfl fun t _ => by rw [Finset.sum_congr rfl fun j _ => by rw [hzt j]]]
      exact recon_err_expand hR c _
    have hRw : (∑ t, (c t - ∑ j, W i j * R t j) ^ 2)
        = (∑ t, c t ^ 2) - 2 * (∑ j, W i j * z j) + ∑ j, W i j ^ 2 :=
      recon_err_expand hR c _
    rw [hL, hRw]
    have key : ((∑ t, c t ^ 2) - 2 * (∑ j, W i j * z j) + ∑ j, W i j ^ 2)
        - (((∑ t, c t ^ 2) - 2 * (∑ j : Fin n, (if (j : ℕ) < k then z j else 0) * z j)
          + ∑ j : Fin n, (if (j : ℕ) < k then z j else 0) ^ 2))
        = ∑ j : Fin n, (if (j : ℕ) < k then (W i j - z j) ^ 2 else 0) := by
      have collect : ((∑ t, c t ^ 2) - 2 * (∑ j, W i j * z j) + ∑ j, W i j ^ 2)
          - (((∑ t, c t ^ 2) - 2 * (∑ j : Fin n, (if (j : ℕ) < k then z j else 0) * z j)
            + ∑ j : Fin n, (if (j : ℕ) < k then z j else 0) ^ 2))
          = ∑ j : Fin n, ((W i j ^ 2 - 2 * (W i j * z j))
              + (2 * ((if (j : ℕ) < k then z j else 0) * z j)
                - (if (j : ℕ) < k then z j else 0) ^ 2)) := by
        rw [Finset.sum_add_distrib, Finset.sum_sub_distrib, Finset.sum_sub_distrib,
          ← Finset.mul_sum, ← Finset.mul_sum]
        ring
      rw [collect]
      apply Finset.sum_congr rfl
      intro j _
      by_cases h : (j : ℕ) < k
      · simp only [h, if_true]
        ring
      · simp only [h, if_false]
        rw [hW j (le_of_not_lt h)]
        ring
    have hnn : 0 ≤ ∑ j : Fin n, (if (j : ℕ) < k then (W i j - z j) ^ 2 else 0) := by
      apply Finset.sum_nonneg
      intro j _
      by_cases h : (j : ℕ) < k <;> simp [h, sq_nonneg]
    linarith [key, hnn]

/-- Witness for C1 at the identity basis on a concrete 2×2 data matrix with a
model mean distinct from the data's own mean. -/
theorem C1_roundtrip_and_optimality_witness :
    ((1 : Matrix (Fin 2) (Fin 2) ℚ)ᵀ * 1 = 1) ∧
    (X_simplified ![7, 9] 1
        (X_new_test ![7, 9] 1 (Matrix.of ![![(1 : ℚ), 2], ![3, 5]]))
      = Matrix.of ![![(1 : ℚ), 2], ![3, 5]] ∧
    ∀ (k : ℕ) (i : Fin 2) (W : Matrix (Fin 2) (Fin 2) ℚ),
      (∀ j : Fin 2, k ≤ (j : ℕ) → W i j = 0) →
      errSq (Matrix.of ![![(1 : ℚ), 2], ![3, 5]])
          (X_simplified ![7, 9] 1
            (zeroTail k (X_new_test ![7, 9] 1 (Matrix.of ![![(1 : ℚ), 2], ![3, 5]])))) i
        ≤ errSq (Matrix.of ![![(1 : ℚ), 2], ![3, 5]])
            (X_simplified ![7, 9] 1 W) i) :=
  ⟨by simp,
    C1_roundtrip_and_optimality ![7, 9] (Matrix.of ![![(1 : ℚ), 2], ![3, 5]]) 1 (by simp)⟩

/-- Counterexample to claim C1 as stated: the eigensolver contract (unit
eigenvectors of the covariance) does not force an orthonormal basis when
eigenvalues repeat. For the 5×2 dataset with identity covariance, the
conforming decomposition with eigenvalues (1,1) and eigenvector columns
(1,0), (3/5,4/5) yields a fitted model whose full-rank round trip does not
recover the data: sample (1,1) reconstructs to first coordinate 46/25 ≠ 1. -/
theorem C1_roundtrip_counterexample :
    (∀ j : Fin 2,
      Sigma (Matrix.of ![![(1 : ℚ), 1], ![-1, 1], ![1, -1], ![-1, -1], ![0, 0]]) *ᵥ
          (fun t => (Matrix.of ![![(1 : ℚ), 3/5], ![0, 4/5]]) t j)
        = (![1, 1] : Fin 2 → ℚ) j • (fun t => (Matrix.of ![![(1 : ℚ), 3/5], ![0, 4/5]]) t j)) ∧
    (∀ j : Fin 2,
      (fun t => (Matrix.of ![![(1 : ℚ), 3/5], ![0, 4/5]]) t j) ⬝ᵥ
        (fun t => (Matrix.of ![![(1 : ℚ), 3/5], ![0, 4/5]]) t j) = 1) ∧
    ¬ (X_simplified (Xbar (Matrix.of ![![(1 : ℚ), 1], ![-1, 1], ![1, -1], ![-1, -1], ![0, 0]]))
        (Matrix.of ![![(1 : ℚ), 3/5], ![0, 4/5]])
        (X_new (Matrix.of ![![(1 : ℚ), 1], ![-1, 1], ![1, -1], ![-1, -1], ![0, 0]])
          (Matrix.of ![![(1 : ℚ), 3/5], ![0, 4/5]])) 0 0
      = (Matrix.of ![![(1 : ℚ), 1], ![-1, 1], ![1, -1], ![-1, -1], ![0, 0]]) 0 0) := by
  have hS : Sigma (Matrix.of ![![(1 : ℚ), 1], ![-1, 1], ![1, -1], ![-1, -1], ![0, 0]])
      = (1 : Matrix (Fin 2) (Fin 2) ℚ) := by
    ext i j
    fin_cases i <;> fin_cases j <;>
      norm_num [Sigma, centered, Xbar, Matrix.mul_apply, Fin.sum_univ_succ,
        Matrix.one_apply]
  refine ⟨?_, ?_, ?_⟩
  · intro j
    rw [hS, Matrix.one_mulVec]
    fin_cases j <;> simp
  · intro j
    fin_cases j <;> norm_num [Matrix.dotProduct, Fin.sum_univ_succ]
  · norm_num [X_simplified, X_new, centered, Xbar, Matrix.mul_apply, Fin.sum_univ_succ]

/-- Claim C3 — transform subtracts the model's mean vector (the fit-time mean,
also when the data is out-of-sample, as in `X_new_test = np.dot(X_test-Xbar,R)`)
from each sample and takes inner products with each of the `k` retained
eigenvectors (columns of `R`), producing a length-`k` vector for each of the
`m` samples; the output row index equals the input sample index, so sample
order is preserved. On the training data itself this is the notebook's
`X_new`. -/
theorem C3_transform_inner_products {m2 n k : ℕ} (Xb : Fin n → ℚ)
    (X : Matrix (Fin m2) (Fin n) ℚ)
    (R : Matrix (Fin n) (Fin n) ℚ) (hk : k ≤ n) :
    (∀ (i : Fin m2) (j : Fin k),
      truncCols k hk (X_new_test Xb R X) i j
        = (fun t => X i t - Xb t) ⬝ᵥ (fun t => R t (Fin.castLE hk j))) ∧
    X_new X R = X_new_test (Xbar X) R X := by
  constructor
  · intro i j
    rw [truncCols, X_new_test, Matrix.mul_apply]
    rfl
  · rfl

/-- Witness for C3: one retained component, projecting a data matrix with a
model mean distinct from that matrix's own mean (the out-of-sample case). -/
theorem C3_transform_inner_products_witness :
    (1 ≤ 2) ∧
    ((∀ (i : Fin 2) (j : Fin 1),
      truncCols 1 (by norm_num) (X_new_test ![7, 9]
          (Matrix.of ![![(0 : ℚ), 1], ![1, 0]]) (Matrix.of ![![(1 : ℚ), 2], ![3, 5]])) i j
        = (fun t => (Matrix.of ![![(1 : ℚ), 2], ![3, 5]]) i t - (![7, 9] : Fin 2 → ℚ) t) ⬝ᵥ
          (fun t => (Matrix.of ![![(0 : ℚ), 1], ![1, 0]]) t (Fin.castLE (by norm_num) j))) ∧
    X_new (Matrix.of ![![(1 : ℚ), 2], ![3, 5]]) (Matrix.of ![![(0 : ℚ), 1], ![1, 0]])
      = X_new_test (Xbar (Matrix.of ![![(1 : ℚ), 2], ![3, 5]]))
          (Matrix.of ![![(0 : ℚ), 1], ![1, 0]]) (Matrix.of ![![(1 : ℚ), 2], ![3, 5]])) :=
  ⟨by norm_num,
    C3_transform_inner_products ![7, 9] (Matrix.of ![![(1 : ℚ), 2], ![3, 5]])
      (Matrix.of ![![(0 : ℚ), 1], ![1, 0]]) (by norm_num)⟩

/-- Claim C2 — `fit` computes the covariance as the mean-centered product
`(Xᶜ)ᵗ·Xᶜ/(m−1)` (unbiased divisor), and the resulting n×n matrix is symmetric
and positive-semidefinite. -/
theorem C2_covariance_symmetric_psd {m n : ℕ} (X : Matrix (Fin m) (Fin n) ℚ)
    (hm : 2 ≤ m) :
    (∀ a b, Sigma X a b = (∑ t, (X t a - Xbar X a) * (X t b - Xbar X b)) / ((m : ℚ) - 1)) ∧
    (Sigma X)ᵀ = Sigma X ∧
    ∀ v : Fin n → ℚ, 0 ≤ v ⬝ᵥ (Sigma X) *ᵥ v := by
  refine ⟨?_, ?_, ?_⟩
  · intro a b
    simp only [Sigma, smul_apply, transpose_apply, mul_apply, centered, smul_eq_mul]
    rw [div_eq_mul_inv]
    ring
  · simp only [Sigma, transpose_smul, transpose_mul, transpose_transpose]
  · intro v
    have hrw : v ⬝ᵥ (Sigma X) *ᵥ v
        = (1 / ((m : ℚ) - 1)) * ((centered X *ᵥ v) ⬝ᵥ (centered X *ᵥ v)) := by
      simp only [Sigma, smul_mulVec_assoc, dotProduct_smul, smul_eq_mul]
      rw [← mulVec_mulVec, dotProduct_mulVec, vecMul_transpose]
    rw [hrw]
    have h1 : (0 : ℚ) ≤ 1 / ((m : ℚ) - 1) := by
      apply div_nonneg zero_le_one
      have : (2 : ℚ) ≤ (m : ℚ) := by exact_mod_cast hm
      linarith
    have h2 : (0 : ℚ) ≤ (centered X *ᵥ v) ⬝ᵥ (centered X *ᵥ v) := by
      unfold dotProduct
      apply Finset.sum_nonneg
      intro t _
      exact mul_self_nonneg _
    exact mul_nonneg h1 h2

/-- Witness for C2 at a concrete 2×2 input. -/
theorem C2_covariance_symmetric_psd_witness :
    2 ≤ 2 ∧
    ((∀ a b, Sigma (Matrix.of ![![(0 : ℚ), 0], ![2, 4]]) a b
        = (∑ t, ((Matrix.of ![![(0 : ℚ), 0], ![2, 4]]) t a
            - Xbar (Matrix.of ![![(0 : ℚ), 0], ![2, 4]]) a)
          * ((Matrix.of ![![(0 : ℚ), 0], ![2, 4]]) t b
            - Xbar (Matrix.of ![![(0 : ℚ), 0], ![2, 4]]) b)) / ((2 : ℚ) - 1)) ∧
    (Sigma (Matrix.of ![![(0 : ℚ), 0], ![2, 4]]))ᵀ = Sigma (Matrix.of ![![(0 : ℚ), 0], ![2, 4]]) ∧
    ∀ v : Fin 2 → ℚ, 0 ≤ v ⬝ᵥ (Sigma (Matrix.of ![![(0 : ℚ), 0], ![2, 4]])) *ᵥ v) :=
  ⟨by norm_num, C2_covariance_symmetric_psd (Matrix.of ![![(0 : ℚ), 0], ![2, 4]]) (by norm_num)⟩

/-- Claim C5 — explained-variance ratios are eigenvalue over the full
eigenvalue sum; they sum to 1, the cumulative sequence is non-decreasing, and
it reaches the full-sum value (1) at the last component. -/
theorem C5_variance_ratio_properties {n : ℕ} (lamda : Fin (n + 1) → ℚ)
    (h0 : ∀ i, 0 ≤ lamda i) (hs : 0 < ∑ i, lamda i) :
    (∀ j, variance_fraction lamda j = lamda j / ∑ i, lamda i) ∧
    (∑ j, variance_fraction lamda j = 1) ∧
    (∀ a b : Fin (n + 1), a ≤ b → cumVF lamda a ≤ cumVF lamda b) ∧
    cumVF lamda (Fin.last n) = 1 := by
  have hsum : ∑ j, variance_fraction lamda j = 1 := by
    unfold variance_fraction
    rw [← Finset.sum_div]
    exact div_self (ne_of_gt hs)
  refine ⟨fun j => rfl, hsum, ?_, ?_⟩
  · intro a b hab
    unfold cumVF
    apply Finset.sum_le_sum_of_subset_of_nonneg
    · exact Finset.Iic_subset_Iic.mpr hab
    · intro i _ _
      exact div_nonneg (h0 i) hs.le
  · unfold cumVF
    have huniv : Finset.Iic (Fin.last n) = Finset.univ := by
      ext i
      simp [Fin.le_last]
    rw [huniv, hsum]

/-- Witness for C5 on the eigenvalue vector (3, 1). -/
theorem C5_variance_ratio_properties_witness :
    (∀ i, 0 ≤ (![3, 1] : Fin 2 → ℚ) i) ∧ (0 < ∑ i, (![3, 1] : Fin 2 → ℚ) i) ∧
    ((∀ j, variance_fraction (![3, 1] : Fin 2 → ℚ) j
        = (![3, 1] : Fin 2 → ℚ) j / ∑ i, (![3, 1] : Fin 2 → ℚ) i) ∧
    (∑ j, variance_fraction (![3, 1] : Fin 2 → ℚ) j = 1) ∧
    (∀ a b : Fin 2, a ≤ b → cumVF (![3, 1] : Fin 2 → ℚ) a ≤ cumVF (![3, 1] : Fin 2 → ℚ) b) ∧
    cumVF (![3, 1] : Fin 2 → ℚ) (Fin.last 1) = 1) :=
  ⟨by decide, by norm_num [Fin.sum_univ_succ],
    C5_variance_ratio_properties ![3, 1] (by decide) (by norm_num [Fin.sum_univ_succ])⟩

/-- Counterexample to claim C5 as stated: fitting the constant dataset
((1,1),(1,1)) — a valid input with m = 2 finite samples — gives the zero
covariance matrix, whose eigenvalues are all zero (the identity columns are
conforming unit eigenvectors); the explained-variance ratios then sum to 0,
not 1 (in floating point, 0/0 is NaN), so the ratio-sum property fails for
this fitted model. -/
theorem C5_ratio_sum_counterexample :
    (∀ j : Fin 2,
      Sigma (Matrix.of ![![(1 : ℚ), 1], ![1, 1]]) *ᵥ
          (fun t => (1 : Matrix (Fin 2) (Fin 2) ℚ) t j)
        = (![0, 0] : Fin 2 → ℚ) j • (fun t => (1 : Matrix (Fin 2) (Fin 2) ℚ) t j)) ∧
    ¬ (∑ j, variance_fraction (![0, 0] : Fin 2 → ℚ) j = 1) := by
  have hS : Sigma (Matrix.of ![![(1 : ℚ), 1], ![1, 1]]) = 0 := by
    ext i j
    fin_cases i <;> fin_cases j <;>
      norm_num [Sigma, centered, Xbar, Matrix.mul_apply, Fin.sum_univ_succ]
  constructor
  · intro j
    rw [hS, Matrix.zero_mulVec]
    fin_cases j <;> simp
  · norm_num [variance_fraction, Fin.sum_univ_succ]

/-- The covariance matrix is symmetric (shared helper). -/
lemma Sigma_transpose {m n : ℕ} (X : Matrix (Fin m) (Fin n) ℚ) :
    (Sigma X)ᵀ = Sigma X := by
  unfold Sigma
  rw [Matrix.transpose_smul, Matrix.transpose_mul, Matrix.transpose_transpose]

/-- Each column of the centered matrix sums to zero. -/
lemma sum_centered_col {m n : ℕ} (X : Matrix (Fin m) (Fin n) ℚ) (hm : (m : ℚ) ≠ 0)
    (j : Fin n) : ∑ i, centered X i j = 0 := by
  unfold centered Xbar
  rw [Finset.sum_sub_distrib, Finset.sum_const, Finset.card_univ, Fintype.card_fin,
    nsmul_eq_mul, mul_div_cancel₀ _ hm, sub_self]

/-- The projected training data has per-coordinate sample mean zero. -/
lemma Xbar_X_new {m n : ℕ} (X : Matrix (Fin m) (Fin n) ℚ)
    (R : Matrix (Fin n) (Fin n) ℚ) (hm : (m : ℚ) ≠ 0) : Xbar (X_new X R) = 0 := by
  funext j
  show Xbar (X_new X R) j = (0 : ℚ)
  unfold Xbar
  rw [div_eq_zero_iff]
  left
  calc ∑ i, X_new X R i j = ∑ i, ∑ t, centered X i t * R t j := by
        apply Finset.sum_congr rfl
        intro i _
        rw [X_new, Matrix.mul_apply]
    _ = ∑ t, (∑ i, centered X i t) * R t j := by
        rw [Finset.sum_comm]
        apply Finset.sum_congr rfl
        intro t _
        rw [Finset.sum_mul]
    _ = 0 := by
        apply Finset.sum_eq_zero
        intro t _
        rw [sum_centered_col X hm t, zero_mul]

/-- Centering a matrix whose column means are already zero is the identity. -/
lemma centered_of_mean_zero {m n : ℕ} (A : Matrix (Fin m) (Fin n) ℚ)
    (h : Xbar A = 0) : centered A = A := by
  funext i j
  unfold centered
  rw [congrFun h j]
  simp

/-- Claim C10, amended — projecting the training data with a full eigenbasis
whose columns are orthonormal (`Rᵀ * R = 1`, guaranteed by the eigensolver
contract whenever the eigenvalues are distinct, cf. C6) yields a matrix with
per-coordinate sample mean 0 and diagonal sample covariance, the model's
(sorted) eigenvalues on the diagonal. -/
theorem C10_projected_mean_zero_cov_diagonal {m n : ℕ} (X : Matrix (Fin m) (Fin n) ℚ)
    (lamda : Fin n → ℚ) (R : Matrix (Fin n) (Fin n) ℚ) (hm : 2 ≤ m)
    (hR : Rᵀ * R = 1) (hEig : Sigma X * R = R * Matrix.diagonal lamda) :
    Xbar (X_new X R) = 0 ∧ Sigma (X_new X R) = Matrix.diagonal lamda := by
  have hm0 : (m : ℚ) ≠ 0 := Nat.cast_ne_zero.mpr (by omega)
  have h1 : Xbar (X_new X R) = 0 := Xbar_X_new X R hm0
  refine ⟨h1, ?_⟩
  show Sigma (X_new X R) = Matrix.diagonal lamda
  unfold Sigma
  rw [centered_of_mean_zero _ h1]
  show (1 / ((m : ℚ) - 1)) • ((centered X * R)ᵀ * (centered X * R)) = Matrix.diagonal lamda
  rw [Matrix.transpose_mul]
  have key : (1 / ((m : ℚ) - 1)) • ((Rᵀ * (centered X)ᵀ) * (centered X * R))
      = Rᵀ * (Sigma X * R) := by
    unfold Sigma
    rw [Matrix.smul_mul, Matrix.mul_smul]
    congr 1
    simp only [Matrix.mul_assoc]
  rw [key, hEig, ← Matrix.mul_assoc, hR, Matrix.one_mul]

/-- Witness for C10: a 5×2 data matrix whose covariance is diag(1,4), with the
identity eigenbasis. -/
theorem C10_projected_mean_zero_cov_diagonal_witness :
    2 ≤ 5 ∧ ((1 : Matrix (Fin 2) (Fin 2) ℚ)ᵀ * 1 = 1) ∧
    (Sigma (Matrix.of ![![(1 : ℚ), 2], ![-1, 2], ![1, -2], ![-1, -2], ![0, 0]]) * 1
      = 1 * Matrix.diagonal (![1, 4] : Fin 2 → ℚ)) ∧
    (Xbar (X_new (Matrix.of ![![(1 : ℚ), 2], ![-1, 2], ![1, -2], ![-1, -2], ![0, 0]]) 1) = 0 ∧
      Sigma (X_new (Matrix.of ![![(1 : ℚ), 2], ![-1, 2], ![1, -2], ![-1, -2], ![0, 0]]) 1)
        = Matrix.diagonal (![1, 4] : Fin 2 → ℚ)) := by
  have hS : Sigma (Matrix.of ![![(1 : ℚ), 2], ![-1, 2], ![1, -2], ![-1, -2], ![0, 0]])
      = Matrix.diagonal (![1, 4] : Fin 2 → ℚ) := by
    ext i j
    fin_cases i <;> fin_cases j <;>
      norm_num [Sigma, centered, Xbar, Matrix.mul_apply, Fin.sum_univ_succ,
        Matrix.diagonal]
  have hEig : Sigma (Matrix.of ![![(1 : ℚ), 2], ![-1, 2], ![1, -2], ![-1, -2], ![0, 0]]) * 1
      = 1 * Matrix.diagonal (![1, 4] : Fin 2 → ℚ) := by
    rw [hS, Matrix.mul_one, Matrix.one_mul]
  exact ⟨by norm_num, by simp, hEig,
    C10_projected_mean_zero_cov_diagonal
      (Matrix.of ![![(1 : ℚ), 2], ![-1, 2], ![1, -2], ![-1, -2], ![0, 0]]) ![1, 4] 1
      (by norm_num) (by simp) hEig⟩

/-- Counterexample to claim C10 as stated: for the 5×2 dataset with identity
covariance, the conforming eigendecomposition with eigenvalues (1,1) and unit
eigenvector columns (1,0), (3/5,4/5) — permitted by the eigensolver contract
since the eigenvalue is repeated — projects the training data to a matrix
whose sample covariance has off-diagonal entry 3/5 ≠ 0, so the projected
covariance is not diagonal for every valid fit input. -/
theorem C10_cov_diagonal_counterexample :
    (∀ j : Fin 2,
      Sigma (Matrix.of ![![(1 : ℚ), 1], ![-1, 1], ![1, -1], ![-1, -1], ![0, 0]]) *ᵥ
          (fun t => (Matrix.of ![![(1 : ℚ), 3/5], ![0, 4/5]]) t j)
        = (![1, 1] : Fin 2 → ℚ) j • (fun t => (Matrix.of ![![(1 : ℚ), 3/5], ![0, 4/5]]) t j)) ∧
    (∀ j : Fin 2,
      (fun t => (Matrix.of ![![(1 : ℚ), 3/5], ![0, 4/5]]) t j) ⬝ᵥ
        (fun t => (Matrix.of ![![(1 : ℚ), 3/5], ![0, 4/5]]) t j) = 1) ∧
    ¬ (Sigma (X_new (Matrix.of ![![(1 : ℚ), 1], ![-1, 1], ![1, -1], ![-1, -1], ![0, 0]])
          (Matrix.of ![![(1 : ℚ), 3/5], ![0, 4/5]])) 0 1 = 0) := by
  have hS : Sigma (Matrix.of ![![(1 : ℚ), 1], ![-1, 1], ![1, -1], ![-1, -1], ![0, 0]])
      = (1 : Matrix (Fin 2) (Fin 2) ℚ) := by
    ext i j
    fin_cases i <;> fin_cases j <;>
      norm_num [Sigma, centered, Xbar, Matrix.mul_apply, Fin.sum_univ_succ,
        Matrix.one_apply]
  refine ⟨?_, ?_, ?_⟩
  · intro j
    rw [hS, Matrix.one_mulVec]
    fin_cases j <;> simp
  · intro j
    fin_cases j <;> norm_num [Matrix.dotProduct, Fin.sum_univ_succ]
  · norm_num [Sigma, X_new, centered, Xbar, Matrix.mul_apply, Fin.sum_univ_succ]

/-- Counterexample to claim C6 as stated: the eigensolver contract (unit-length
eigenvectors of the covariance matrix) does not force orthogonality inside a
repeated eigenspace. For a concrete 5×2 data matrix whose covariance is the
identity, the decomposition with eigenvalues (1,1) and eigenvector columns
(1,0) and (3/5,4/5) satisfies the contract, yet two distinct retained
eigenvectors have dot product 3/5 ≠ 0. -/
theorem C6_orthonormality_counterexample :
    ((Sigma (Matrix.of ![![(1 : ℚ), 1], ![-1, 1], ![1, -1], ![-1, -1], ![0, 0]]))ᵀ
        = Sigma (Matrix.of ![![(1 : ℚ), 1], ![-1, 1], ![1, -1], ![-1, -1], ![0, 0]])) ∧
    (∀ j : Fin 2,
      Sigma (Matrix.of ![![(1 : ℚ), 1], ![-1, 1], ![1, -1], ![-1, -1], ![0, 0]]) *ᵥ
          (fun t => (Matrix.of ![![(1 : ℚ), 3/5], ![0, 4/5]]) t j)
        = (![1, 1] : Fin 2 → ℚ) j • (fun t => (Matrix.of ![![(1 : ℚ), 3/5], ![0, 4/5]]) t j)) ∧
    (∀ j : Fin 2,
      (fun t => (Matrix.of ![![(1 : ℚ), 3/5], ![0, 4/5]]) t j) ⬝ᵥ
        (fun t => (Matrix.of ![![(1 : ℚ), 3/5], ![0, 4/5]]) t j) = 1) ∧
    ¬ ((fun t => (Matrix.of ![![(1 : ℚ), 3/5], ![0, 4/5]]) t 0) ⬝ᵥ
        (fun t => (Matrix.of ![![(1 : ℚ), 3/5], ![0, 4/5]]) t 1) = 0) := by
  have hS : Sigma (Matrix.of ![![(1 : ℚ), 1], ![-1, 1], ![1, -1], ![-1, -1], ![0, 0]])
      = (1 : Matrix (Fin 2) (Fin 2) ℚ) := by
    ext i j
    fin_cases i <;> fin_cases j <;>
      norm_num [Sigma, centered, Xbar, Matrix.mul_apply, Fin.sum_univ_succ,
        Matrix.one_apply]
  refine ⟨by rw [hS]; simp, ?_, ?_, ?_⟩
  · intro j
    rw [hS, Matrix.one_mulVec]
    fin_cases j <;> simp
  · intro j
    fin_cases j <;> norm_num [Matrix.dotProduct, Fin.sum_univ_succ]
  · norm_num [Matrix.dotProduct, Fin.sum_univ_succ]

/-- Claim C6, amended — retained eigenvectors are unit length, and any two
retained eigenvectors belonging to distinct eigenvalues are orthogonal. -/
theorem C6_amended_orthogonality {m n : ℕ} (X : Matrix (Fin m) (Fin n) ℚ)
    (lamda : Fin n → ℚ) (R : Matrix (Fin n) (Fin n) ℚ)
    (hEig : ∀ j, Sigma X *ᵥ (fun t => R t j) = lamda j • (fun t => R t j))
    (hUnit : ∀ j, (fun t => R t j) ⬝ᵥ (fun t => R t j) = 1) :
    (∀ j, (fun t => R t j) ⬝ᵥ (fun t => R t j) = 1) ∧
    ∀ a b : Fin n, lamda a ≠ lamda b →
      (fun t => R t a) ⬝ᵥ (fun t => R t b) = 0 := by
  refine ⟨hUnit, ?_⟩
  intro a b hab
  have h1 : (Sigma X *ᵥ (fun t => R t a)) ⬝ᵥ (fun t => R t b)
      = lamda a * ((fun t => R t a) ⬝ᵥ (fun t => R t b)) := by
    rw [hEig a, Matrix.smul_dotProduct, smul_eq_mul]
  have h2 : (fun t => R t a) ⬝ᵥ (Sigma X *ᵥ (fun t => R t b))
      = lamda b * ((fun t => R t a) ⬝ᵥ (fun t => R t b)) := by
    rw [hEig b, Matrix.dotProduct_smul, smul_eq_mul]
  have hMv : Sigma X *ᵥ (fun t => R t a) = (fun t => R t a) ᵥ* Sigma X := by
    conv_lhs => rw [← Sigma_transpose X]
    exact Matrix.mulVec_transpose (Sigma X) _
  have h3 : (Sigma X *ᵥ (fun t => R t a)) ⬝ᵥ (fun t => R t b)
      = (fun t => R t a) ⬝ᵥ (Sigma X *ᵥ (fun t => R t b)) := by
    rw [hMv, ← Matrix.dotProduct_mulVec]
  have hd : lamda a * ((fun t => R t a) ⬝ᵥ (fun t => R t b))
      = lamda b * ((fun t => R t a) ⬝ᵥ (fun t => R t b)) := by
    rw [← h1, h3, h2]
  have hz : (lamda a - lamda b) * ((fun t => R t a) ⬝ᵥ (fun t => R t b)) = 0 := by
    linear_combination hd
  rcases mul_eq_zero.mp hz with h | h
  · exact absurd (sub_eq_zero.mp h) hab
  · exact h

/-- Witness for the amended C6: identity eigenbasis of a concrete diag(1,4)
covariance. -/
theorem C6_amended_orthogonality_witness :
    (∀ j : Fin 2,
      Sigma (Matrix.of ![![(1 : ℚ), 2], ![-1, 2], ![1, -2], ![-1, -2], ![0, 0]]) *ᵥ
          (fun t => (1 : Matrix (Fin 2) (Fin 2) ℚ) t j)
        = (![1, 4] : Fin 2 → ℚ) j • (fun t => (1 : Matrix (Fin 2) (Fin 2) ℚ) t j)) ∧
    (∀ j : Fin 2,
      (fun t => (1 : Matrix (Fin 2) (Fin 2) ℚ) t j) ⬝ᵥ
        (fun t => (1 : Matrix (Fin 2) (Fin 2) ℚ) t j) = 1) ∧
    ((∀ j, (fun t => (1 : Matrix (Fin 2) (Fin 2) ℚ) t j) ⬝ᵥ
        (fun t => (1 : Matrix (Fin 2) (Fin 2) ℚ) t j) = 1) ∧
    ∀ a b : Fin 2, (![1, 4] : Fin 2 → ℚ) a ≠ (![1, 4] : Fin 2 → ℚ) b →
      (fun t => (1 : Matrix (Fin 2) (Fin 2) ℚ) t a) ⬝ᵥ
        (fun t => (1 : Matrix (Fin 2) (Fin 2) ℚ) t b) = 0) := by
  have hS : Sigma (Matrix.of ![![(1 : ℚ), 2], ![-1, 2], ![1, -2], ![-1, -2], ![0, 0]])
      = Matrix.diagonal (![1, 4] : Fin 2 → ℚ) := by
    ext i j
    fin_cases i <;> fin_cases j <;>
      norm_num [Sigma, centered, Xbar, Matrix.mul_apply, Fin.sum_univ_succ,
        Matrix.diagonal]
  have hEig : ∀ j : Fin 2,
      Sigma (Matrix.of ![![(1 : ℚ), 2], ![-1, 2], ![1, -2], ![-1, -2], ![0, 0]]) *ᵥ
          (fun t => (1 : Matrix (Fin 2) (Fin 2) ℚ) t j)
        = (![1, 4] : Fin 2 → ℚ) j • (fun t => (1 : Matrix (Fin 2) (Fin 2) ℚ) t j) := by
    intro j
    rw [hS]
    funext t
    fin_cases j <;> fin_cases t <;>
      norm_num [Matrix.mulVec, Matrix.dotProduct, Fin.sum_univ_succ, Matrix.diagonal,
        Matrix.one_apply]
  have hUnit : ∀ j : Fin 2,
      (fun t => (1 : Matrix (Fin 2) (Fin 2) ℚ) t j) ⬝ᵥ
        (fun t => (1 : Matrix (Fin 2) (Fin 2) ℚ) t j) = 1 := by
    intro j
    fin_cases j <;> norm_num [Matrix.dotProduct, Fin.sum_univ_succ, Matrix.one_apply]
  exact ⟨hEig, hUnit,
    C6_amended_orthogonality
      (Matrix.of ![![(1 : ℚ), 2], ![-1, 2], ![1, -2], ![-1, -2], ![0, 0]]) ![1, 4] 1
      hEig hUnit⟩

/-- Counterexample to claim C4 as stated: with the two equal eigenvalues (2,2),
`argsort` ascending is stable (order [0,1]) and the reversal `[::-1]` makes the
descending result [1,0] — the tied pair appears in reverse of its original
order, not in its original order. -/
theorem C4_tie_order_counterexample :
    argsortDesc (![(2 : ℚ), 2]) = [(1 : Fin 2), 0] ∧
    argsortDesc (![(2 : ℚ), 2]) ≠ [(0 : Fin 2), 1] := by
  decide

/-- Claim C4, amended — the component order is sorted by eigenvalue descending
(non-increasing), and eigenpairs with equal eigenvalues appear in reverse of
their original computed order (still a deterministic tie-break). -/
theorem C4_sorted_desc_ties_reversed {n : ℕ} (lamda : Fin n → ℚ) :
    (argsortDesc lamda).Pairwise
      (fun x y => lamda y ≤ lamda x ∧ (lamda x = lamda y → (y : ℕ) < (x : ℕ))) := by
  have hsorted : List.Sorted (ltIdx lamda)
      ((List.finRange n).insertionSort (ltIdx lamda)) :=
    List.sorted_insertionSort _ _
  have hpair : (argsortDesc lamda).Pairwise (fun x y => ltIdx lamda y x) := by
    rw [argsortDesc, List.pairwise_reverse]
    exact hsorted
  have hnodup : (argsortDesc lamda).Pairwise (fun x y => x ≠ y) := by
    have : (argsortDesc lamda).Nodup := by
      rw [argsortDesc, List.nodup_reverse]
      exact ((List.perm_insertionSort _ _).nodup_iff).mpr (List.nodup_finRange n)
    exact this
  refine (hpair.and hnodup).imp ?_
  rintro x y ⟨hrel, hne⟩
  rcases hrel with h | ⟨hEqv, hle⟩
  · refine ⟨le_of_lt h, fun hEq => ?_⟩
    rw [hEq] at h
    exact absurd h (lt_irrefl _)
  · refine ⟨le_of_eq hEqv, fun _ => ?_⟩
    have : y < x := lt_of_le_of_ne hle (Ne.symm hne)
    exact this

/-- Claim C7 — `fit` fails with `InvalidInput` exactly on degenerate input
(a single sample, a non-finite value, or a requested component count `k > n`)
and returns a complete model otherwise. -/
theorem C7_fit_validation {m n k : ℕ}
    (eig : Matrix (Fin n) (Fin n) ℚ → (Fin n → ℚ) × Matrix (Fin n) (Fin n) ℚ)
    (X : Matrix (Fin m) (Fin n) Val) (hm : 1 ≤ m) :
    (fit eig k X = Except.error PCAError.invalidInput ↔
      (m = 1 ∨ (∃ i j, (X i j).isFinite = false) ∨ n < k)) ∧
    ((m ≠ 1 ∧ (∀ i j, (X i j).isFinite = true) ∧ k ≤ n) →
      ∃ mdl, fit eig k X = Except.ok mdl) := by
  constructor
  · unfold fit
    by_cases h1 : m < 2
    · rw [if_pos h1]
      exact iff_of_true rfl (Or.inl (by omega))
    · rw [if_neg h1]
      by_cases h2 : ∀ i j, (X i j).isFinite = true
      · rw [if_neg (not_not_intro h2)]
        by_cases h3 : k ≤ n
        · rw [dif_pos h3]
          apply iff_of_false
          · simp
          · rintro (hm1 | ⟨i, j, hij⟩ | hnk)
            · omega
            · rw [h2 i j] at hij
              cases hij
            · omega
        · rw [dif_neg h3]
          exact iff_of_true rfl (Or.inr (Or.inr (by omega)))
      · rw [if_pos h2]
        apply iff_of_true rfl
        refine Or.inr (Or.inl ?_)
        simp only [not_forall, Bool.not_eq_true] at h2
        obtain ⟨i, j, hij⟩ := h2
        exact ⟨i, j, hij⟩
  · rintro ⟨hm1, hfin, hkn⟩
    unfold fit
    rw [if_neg (by omega), if_neg (not_not_intro hfin), dif_pos hkn]
    exact ⟨_, rfl⟩

/-- Witness for C7 on a finite 2×2 input with one retained component. -/
theorem C7_fit_validation_witness :
    1 ≤ 2 ∧
    ((fit (fun _ => (0, 1)) 1
        (Matrix.of ![![Val.num 1, Val.num 2], ![Val.num 3, Val.num 4]])
      = Except.error PCAError.invalidInput ↔
      (2 = 1 ∨ (∃ i j, ((Matrix.of ![![Val.num 1, Val.num 2],
          ![Val.num 3, Val.num 4]]) i j).isFinite = false) ∨ 2 < 1)) ∧
    ((2 ≠ 1 ∧ (∀ i j, ((Matrix.of ![![Val.num 1, Val.num 2],
          ![Val.num 3, Val.num 4]]) i j).isFinite = true) ∧ 1 ≤ 2) →
      ∃ mdl, fit (fun _ => (0, 1)) 1
          (Matrix.of ![![Val.num 1, Val.num 2], ![Val.num 3, Val.num 4]])
        = Except.ok mdl)) :=
  ⟨by norm_num,
    C7_fit_validation (fun _ => (0, 1))
      (Matrix.of ![![Val.num 1, Val.num 2], ![Val.num 3, Val.num 4]]) (by norm_num)⟩

/-- Claim C8 — with whitening on, the transform fails with `NumericalError`
exactly when some retained eigenvalue is ≤ the positive epsilon, and otherwise
divides each projected coordinate by the square root of its component's
eigenvalue; with whitening off no division or failure occurs. -/
theorem C8_whitening_behavior {m k : ℕ} (eps : ℚ) (sqrtFn : ℚ → ℚ)
    (lam : Fin k → ℚ) (Z : Matrix (Fin m) (Fin k) ℚ) (heps : 0 < eps) :
    (transformWhiten true eps sqrtFn lam Z = Except.error PCAError.numericalError ↔
      ∃ j, lam j ≤ eps) ∧
    ((∀ j, eps < lam j) →
      transformWhiten true eps sqrtFn lam Z
        = Except.ok (fun i j => Z i j / sqrtFn (lam j))) ∧
    transformWhiten false eps sqrtFn lam Z = Except.ok Z := by
  refine ⟨?_, ?_, by simp [transformWhiten]⟩
  · by_cases h : ∃ j, lam j ≤ eps
    · simp only [transformWhiten, if_pos h]
      exact iff_of_true (by simp) h
    · simp only [transformWhiten, if_neg h]
      exact iff_of_false (by simp) h
  · intro hgt
    have h : ¬ ∃ j, lam j ≤ eps := by
      push_neg
      exact hgt
    simp only [transformWhiten, if_neg h]
    simp

/-- Witness for C8 with eigenvalues (4, 9), epsilon 1/100, and the exact
square root on those values. -/
theorem C8_whitening_behavior_witness :
    (0 : ℚ) < 1/100 ∧
    ((transformWhiten true (1/100) (fun q => if q = 4 then 2 else 3)
        (![4, 9] : Fin 2 → ℚ) (Matrix.of ![![(2 : ℚ), 3]])
      = Except.error PCAError.numericalError ↔ ∃ j, (![4, 9] : Fin 2 → ℚ) j ≤ 1/100) ∧
    ((∀ j, (1 : ℚ)/100 < (![4, 9] : Fin 2 → ℚ) j) →
      transformWhiten true (1/100) (fun q => if q = 4 then 2 else 3)
          (![4, 9] : Fin 2 → ℚ) (Matrix.of ![![(2 : ℚ), 3]])
        = Except.ok (fun i j => (Matrix.of ![![(2 : ℚ), 3]]) i j /
            (fun q => if q = 4 then 2 else 3) ((![4, 9] : Fin 2 → ℚ) j))) ∧
    transformWhiten false (1/100) (fun q => if q = 4 then 2 else 3)
        (![4, 9] : Fin 2 → ℚ) (Matrix.of ![![(2 : ℚ), 3]])
      = Except.ok (Matrix.of ![![(2 : ℚ), 3]])) :=
  ⟨by norm_num,
    C8_whitening_behavior (1/100) (fun q => if q = 4 then 2 else 3) ![4, 9]
      (Matrix.of ![![(2 : ℚ), 3]]) (by norm_num)⟩

/-- `argmaxAbs` depends only on the magnitudes of the entries. -/
lemma argmaxAbs_congr_abs {n : ℕ} (v w : Fin (n + 1) → ℚ)
    (h : ∀ i, |v i| = |w i|) : argmaxAbs v = argmaxAbs w := by
  unfold argmaxAbs
  suffices H : ∀ (l : List (Fin (n + 1))) (b : Fin (n + 1)),
      l.foldl (fun b i => if |v b| < |v i| then i else b) b
        = l.foldl (fun b i => if |w b| < |w i| then i else b) b by
    exact H _ 0
  intro l
  induction l with
  | nil => intro b; rfl
  | cons a l ih =>
    intro b
    simp only [List.foldl_cons]
    rw [h b, h a]
    exact ih _

/-- The entry at `argmaxAbs` has the largest magnitude. -/
lemma argmaxAbs_is_max {n : ℕ} (v : Fin (n + 1) → ℚ) (i : Fin (n + 1)) :
    |v i| ≤ |v (argmaxAbs v)| := by
  suffices H : ∀ (l : List (Fin (n + 1))) (b : Fin (n + 1)),
      |v b| ≤ |v (l.foldl (fun b i => if |v b| < |v i| then i else b) b)| ∧
      ∀ x ∈ l, |v x| ≤ |v (l.foldl (fun b i => if |v b| < |v i| then i else b) b)| by
    exact (H (List.finRange (n + 1)) 0).2 i (List.mem_finRange i)
  intro l
  induction l with
  | nil =>
    intro b
    exact ⟨le_refl _, by simp⟩
  | cons a l ih =>
    intro b
    simp only [List.foldl_cons]
    constructor
    · by_cases hba : |v b| < |v a|
      · rw [if_pos hba]
        exact le_trans (le_of_lt hba) (ih a).1
      · rw [if_neg hba]
        exact (ih b).1
    · intro x hx
      rcases List.mem_cons.mp hx with hxa | hxl
      · subst hxa
        by_cases hba : |v b| < |v x|
        · rw [if_pos hba]
          exact (ih x).1
        · rw [if_neg hba]
          exact le_trans (le_of_not_lt hba) (ih b).1
      · by_cases hba : |v b| < |v a|
        · rw [if_pos hba]
          exact (ih a).2 x hxl
        · rw [if_neg hba]
          exact (ih b).2 x hxl

/-- Claim C9 — the sign convention is deterministic and cancels the
eigensolver's sign ambiguity: canonicalizing a vector and its negation gives
the same result, and the canonicalized vector's largest-magnitude component is
strictly positive; with this, identical fit inputs give identical (not merely
sign-equivalent) eigenvectors. -/
theorem C9_sign_convention_determinism {n : ℕ} (v : Fin (n + 1) → ℚ)
    (hv : v ≠ 0) :
    signFix (fun i => -(v i)) = signFix v ∧ 0 < signFix v (argmaxAbs v) := by
  have hva : v (argmaxAbs v) ≠ 0 := by
    intro h0
    apply hv
    funext i
    have hle := argmaxAbs_is_max v i
    rw [h0, abs_zero] at hle
    have : |v i| = 0 := le_antisymm hle (abs_nonneg _)
    exact abs_eq_zero.mp this
  have hA : argmaxAbs (fun i => -(v i)) = argmaxAbs v :=
    argmaxAbs_congr_abs _ v (fun i => abs_neg (v i))
  constructor
  · unfold signFix
    rw [hA]
    by_cases hneg : v (argmaxAbs v) < 0
    · rw [if_pos hneg, if_neg (by simp only [neg_lt_zero]; linarith)]
    · have hpos : 0 < v (argmaxAbs v) :=
        lt_of_le_of_ne (le_of_not_lt hneg) (Ne.symm hva)
      rw [if_neg hneg, if_pos (by simp only [neg_lt_zero]; exact hpos)]
      funext i
      simp
  · unfold signFix
    by_cases hneg : v (argmaxAbs v) < 0
    · rw [if_pos hneg]
      exact neg_pos.mpr hneg
    · rw [if_neg hneg]
      exact lt_of_le_of_ne (le_of_not_lt hneg) (Ne.symm hva)

/-- Witness for C9 on the vector (-3, 1): the sign flip is cancelled and the
pivot entry is made positive. -/
theorem C9_sign_convention_determinism_witness :
    (![(-3 : ℚ), 1] : Fin 2 → ℚ) ≠ 0 ∧
    (signFix (fun i => -((![(-3 : ℚ), 1] : Fin 2 → ℚ) i)) = signFix ![(-3 : ℚ), 1] ∧
      0 < signFix ![(-3 : ℚ), 1] (argmaxAbs ![(-3 : ℚ), 1])) :=
  ⟨by decide, C9_sign_convention_determinism ![(-3 : ℚ), 1] (by decide)⟩

end PCA
